import Mathlib

/-!
Verification of the modular-arithmetic and signature-generation core of the
vanity-did-plc miner.  The code in `src/math.rs` and `src/insecure_ecdsa.rs`
works on `ethnum::U256` machine integers; we embed those as `Nat` together
with explicit wrapping at `2 ^ 256` (`W`) at every primitive operation, so
that a theorem equating a wrapped computation with the exact one states
precisely that no 256-bit overflow or underflow occurs.
-/

namespace VanityDid

/-- The U256 wraparound modulus, `2 ^ 256` (spelled as a literal so that
kernel evaluation of the embedded functions does not re-expand the power). -/
def W : Nat := 115792089237316195423570985008687907853269984665640564039457584007913129639936

theorem W_eq_pow : W = 2 ^ 256 := by norm_num [W]

theorem W_pos : 0 < W := by norm_num [W]

/-- Wrapping U256 addition. -/
def wadd (a b : Nat) : Nat := (a + b) % W

/-- Wrapping U256 subtraction (two's-complement wraparound for `a < b`). -/
def wsub (a b : Nat) : Nat := (W + a - b) % W

/-- Wrapping U256 multiplication. -/
def wmul (a b : Nat) : Nat := a * b % W

/-- Wrapping U256 left shift by one (`x <<= 1`). -/
def wshl1 (a : Nat) : Nat := 2 * a % W

theorem wadd_eq {a b : Nat} (h : a + b < W) : wadd a b = a + b :=
  Nat.mod_eq_of_lt h

theorem wsub_eq {a b : Nat} (hba : b ≤ a) (ha : a < W) : wsub a b = a - b := by
  unfold wsub
  have h1 : W + a - b = W + (a - b) := by omega
  rw [h1, Nat.add_mod_left]
  exact Nat.mod_eq_of_lt (by omega)

theorem wmul_eq {a b : Nat} (h : a * b < W) : wmul a b = a * b :=
  Nat.mod_eq_of_lt h

theorem wshl1_eq {a : Nat} (h : 2 * a < W) : wshl1 a = 2 * a :=
  Nat.mod_eq_of_lt h

/-! ## `add_mod` (src/math.rs, lines 3–11)

```rust
pub fn add_mod(a: U256, b: U256, n: U256) -> U256 {
    let space = (n - 1) - a;
    if b <= space { a + b } else { b - space - 1 }
}
```
-/

/-- Shallow embedding of `add_mod` with wrapping U256 arithmetic. -/
def add_mod (a b n : Nat) : Nat :=
  let space := wsub (wsub n 1) a
  if b ≤ space then wadd a b else wsub (wsub b space) 1

/-- Overflow-checked variant of `add_mod`: every U256 operation is guarded,
returning `none` if any intermediate would wrap around 256 bits. -/
def add_modC (a b n : Nat) : Option Nat :=
  if 1 ≤ n then
    if a ≤ n - 1 then
      let space := n - 1 - a
      if b ≤ space then
        if a + b < W then some (a + b) else none
      else
        if space + 1 ≤ b then some (b - space - 1) else none
    else none
  else none

theorem add_mod_eq {a b n : Nat} (ha : a < n) (hb : b < n) (hn : n < W) :
    add_mod a b n = (a + b) % n := by
  have hn1 : 1 ≤ n := Nat.one_le_iff_ne_zero.mpr (by omega)
  have hs1 : wsub n 1 = n - 1 := wsub_eq hn1 hn
  have hs2 : wsub (n - 1) a = n - 1 - a := wsub_eq (by omega) (by omega)
  unfold add_mod
  simp only [hs1, hs2]
  by_cases hcase : b ≤ n - 1 - a
  · rw [if_pos hcase, wadd_eq (by omega)]
    exact (Nat.mod_eq_of_lt (by omega)).symm
  · rw [if_neg hcase]
    have hblt : n - 1 - a < b := by omega
    have hs3 : wsub b (n - 1 - a) = b - (n - 1 - a) := wsub_eq (by omega) (by omega)
    rw [hs3, wsub_eq (by omega) (by omega)]
    have hge : n ≤ a + b := by omega
    have hlt2 : a + b - n < n := by omega
    rw [Nat.mod_eq_sub_mod hge, Nat.mod_eq_of_lt hlt2]
    omega

theorem add_mod_lt {a b n : Nat} (ha : a < n) (hb : b < n) (hn : n < W) :
    add_mod a b n < n := by
  rw [add_mod_eq ha hb hn]
  exact Nat.mod_lt _ (by omega)

theorem add_modC_eq {a b n : Nat} (ha : a < n) (hb : b < n) (hn : n < W) :
    add_modC a b n = some (add_mod a b n) := by
  have hn1 : 1 ≤ n := by omega
  have hs1 : wsub n 1 = n - 1 := wsub_eq hn1 hn
  have hs2 : wsub (n - 1) a = n - 1 - a := wsub_eq (by omega) (by omega)
  unfold add_modC add_mod
  simp only [hs1, hs2, if_pos hn1, if_pos (show a ≤ n - 1 by omega)]
  by_cases hcase : b ≤ n - 1 - a
  · rw [if_pos hcase, if_pos hcase, if_pos (show a + b < W by omega), wadd_eq (by omega)]
  · rw [if_neg hcase, if_neg hcase, if_pos (by omega)]
    have hs3 : wsub b (n - 1 - a) = b - (n - 1 - a) := wsub_eq (by omega) (by omega)
    rw [hs3, wsub_eq (by omega) (by omega)]

/-! ## `sub_mod` (src/math.rs, lines 13–19)

```rust
pub fn sub_mod(a: U256, b: U256, n: U256) -> U256 {
    if a >= b { a - b } else { n - (b - a) }
}
```
-/

/-- Shallow embedding of `sub_mod`. -/
def sub_mod (a b n : Nat) : Nat :=
  if b ≤ a then wsub a b else wsub n (wsub b a)

theorem sub_mod_eq {a b n : Nat} (ha : a < n) (hb : b < n) (hn : n < W) :
    sub_mod a b n = if b ≤ a then a - b else n - (b - a) := by
  unfold sub_mod
  by_cases hcase : b ≤ a
  · rw [if_pos hcase, if_pos hcase, wsub_eq hcase (by omega)]
  · rw [if_neg hcase, if_neg hcase]
    have h1 : wsub b a = b - a := wsub_eq (by omega) (by omega)
    rw [h1, wsub_eq (by omega) hn]

theorem sub_mod_int_eq {a b n : Nat} (ha : a < n) (hb : b < n) (hn : n < W) :
    (sub_mod a b n : Int) = ((a : Int) - (b : Int)) % (n : Int) := by
  rw [sub_mod_eq ha hb hn]
  by_cases hcase : b ≤ a
  · rw [if_pos hcase]
    have h1 : ((a - b : Nat) : Int) = (a : Int) - b := by omega
    rw [h1, Int.emod_eq_of_lt (by omega) (by omega)]
  · rw [if_neg hcase]
    have h1 : ((n - (b - a) : Nat) : Int) = (n : Int) - ((b : Int) - a) := by omega
    have h2 : (a : Int) - b = ((a : Int) - b + n) + n * (-1) := by ring
    rw [h1, h2, Int.add_mul_emod_self_left, Int.emod_eq_of_lt (by omega) (by omega)]
    ring

theorem sub_mod_add_mod {a b n : Nat} (ha : a < n) (hb : b < n) (hn : n < W) :
    sub_mod (add_mod a b n) b n = a := by
  have hx := add_mod_eq ha hb hn
  have hxlt : add_mod a b n < n := add_mod_lt ha hb hn
  rw [sub_mod_eq hxlt hb hn]
  by_cases hsmall : a + b < n
  · have hxv : add_mod a b n = a + b := by rw [hx, Nat.mod_eq_of_lt hsmall]
    rw [hxv, if_pos (by omega)]
    omega
  · have hge : n ≤ a + b := by omega
    have hxv : add_mod a b n = a + b - n := by
      rw [hx, Nat.mod_eq_sub_mod hge, Nat.mod_eq_of_lt (by omega)]
    rw [hxv, if_neg (by omega)]
    omega

/-! ## `mul_mod` (src/math.rs, lines 21–41)

```rust
pub fn mul_mod(mut a: U256, mut b: U256, n: U256) -> U256 {
    let mut result = U256::ZERO;
    a %= n; b %= n;
    while b != 0 {
        if (b & 1) == 1 { result = add_mod(result, a, n); }
        b >>= 1;
        if a < n - a { a <<= 1; } else { a -= n - a; }
    }
    result % n
}
```

The overflow-safe doubling `if a < n - a { a <<= 1 } else { a -= n - a }` also
appears verbatim at the bottom of the `generate_signatures` loop
(src/insecure_ecdsa.rs, lines 69–73), so it is factored out here as `qdouble`.
-/

/-- The overflow-safe in-place doubling rule, on wrapping U256 arithmetic. -/
def qdouble (n a : Nat) : Nat :=
  if a < wsub n a then wshl1 a else wsub a (wsub n a)

/-- Overflow-checked variant of `qdouble`. -/
def qdoubleC (n a : Nat) : Option Nat :=
  if a ≤ n then
    if a < n - a then
      if 2 * a < W then some (2 * a) else none
    else some (a - (n - a))
  else none

theorem qdouble_eq {n a : Nat} (ha : a < n) (hn : n < W) :
    qdouble n a = if a < n - a then 2 * a else a - (n - a) := by
  unfold qdouble
  have h1 : wsub n a = n - a := wsub_eq (by omega) hn
  rw [h1]
  by_cases hcase : a < n - a
  · rw [if_pos hcase, if_pos hcase, wshl1_eq (by omega)]
  · rw [if_neg hcase, if_neg hcase, wsub_eq (by omega) (by omega)]

theorem qdouble_lt {n a : Nat} (ha : a < n) (hn : n < W) : qdouble n a < n := by
  rw [qdouble_eq ha hn]
  by_cases hcase : a < n - a
  · rw [if_pos hcase]; omega
  · rw [if_neg hcase]; omega

theorem qdouble_modeq {n a : Nat} (ha : a < n) (hn : n < W) :
    qdouble n a ≡ 2 * a [MOD n] := by
  rw [qdouble_eq ha hn]
  by_cases hcase : a < n - a
  · rw [if_pos hcase]
  · rw [if_neg hcase]
    have h1 : a - (n - a) + n = 2 * a := by omega
    calc a - (n - a) ≡ a - (n - a) + n [MOD n] := (Nat.add_mod_right _ _).symm
      _ = 2 * a := h1

theorem qdoubleC_eq {n a : Nat} (ha : a < n) (hn : n < W) :
    qdoubleC n a = some (qdouble n a) := by
  rw [qdouble_eq ha hn]
  unfold qdoubleC
  rw [if_pos (by omega)]
  by_cases hcase : a < n - a
  · rw [if_pos hcase, if_pos hcase, if_pos (by omega)]
  · rw [if_neg hcase, if_neg hcase]

/-- The `while b != 0` loop of `mul_mod`.  The Rust loop terminates because
`b` is halved each iteration; `fuel` is an upper bound on the iteration count
(any `fuel > b` suffices) and only makes the recursion structural. -/
def mulModLoop (n : Nat) : Nat → Nat → Nat → Nat → Nat
  | 0, _, _, result => result
  | fuel + 1, a, b, result =>
    if b = 0 then result
    else
      mulModLoop n fuel (qdouble n a) (b / 2)
        (if b % 2 = 1 then add_mod result a n else result)

/-- Overflow-checked variant of `mulModLoop`. -/
def mulModLoopC (n : Nat) : Nat → Nat → Nat → Nat → Option Nat
  | 0, _, _, result => some result
  | fuel + 1, a, b, result =>
    if b = 0 then some result
    else
      match (if b % 2 = 1 then add_modC result a n else some result) with
      | none => none
      | some result2 =>
        match qdoubleC n a with
        | none => none
        | some a2 => mulModLoopC n fuel a2 (b / 2) result2

/-- Shallow embedding of `mul_mod`. -/
def mul_mod (a b n : Nat) : Nat :=
  mulModLoop n (b % n + 1) (a % n) (b % n) 0 % n

theorem mulModLoop_spec {n : Nat} (hn : 1 ≤ n) (hW : n < W) :
    ∀ fuel b a result, b < fuel → a < n → result < n →
      mulModLoop n fuel a b result = (result + a * b) % n ∧
      mulModLoopC n fuel a b result = some (mulModLoop n fuel a b result) := by
  intro fuel
  induction fuel with
  | zero => intro b a result hfuel; omega
  | succ fuel ih =>
    intro b a result hfuel ha hr
    by_cases hb : b = 0
    · subst hb
      have h1 : mulModLoop n (fuel + 1) a 0 result = result := by
        simp [mulModLoop]
      have h2 : mulModLoopC n (fuel + 1) a 0 result = some result := by
        simp [mulModLoopC]
      rw [h1, h2, Nat.mul_zero, Nat.add_zero, Nat.mod_eq_of_lt hr]
      exact ⟨rfl, rfl⟩
    · have hb1 : 1 ≤ b := by omega
      have hr2lt : (if b % 2 = 1 then add_mod result a n else result) < n := by
        by_cases hbit : b % 2 = 1
        · rw [if_pos hbit]; exact add_mod_lt hr ha hW
        · rw [if_neg hbit]; exact hr
      have hrec := ih (b / 2) (qdouble n a) _ (by omega) (qdouble_lt ha hW) hr2lt
      have hstep : mulModLoop n (fuel + 1) a b result
          = mulModLoop n fuel (qdouble n a) (b / 2)
              (if b % 2 = 1 then add_mod result a n else result) := by
        simp only [mulModLoop, if_neg hb]
      constructor
      · rw [hstep, hrec.1]
        have hq : qdouble n a * (b / 2) ≡ 2 * a * (b / 2) [MOD n] :=
          Nat.ModEq.mul_right _ (qdouble_modeq ha hW)
        have hr2 : (if b % 2 = 1 then add_mod result a n else result)
            ≡ result + a * (b % 2) [MOD n] := by
          by_cases hbit : b % 2 = 1
          · rw [if_pos hbit, hbit, add_mod_eq hr ha hW, Nat.mul_one]
            exact (Nat.mod_modEq _ _)
          · have hb0 : b % 2 = 0 := by omega
            rw [if_neg hbit, hb0, Nat.mul_zero, Nat.add_zero]
        have hcomb :
            (if b % 2 = 1 then add_mod result a n else result) + qdouble n a * (b / 2)
              ≡ result + a * (b % 2) + 2 * a * (b / 2) [MOD n] := Nat.ModEq.add hr2 hq
        have hfin : result + a * (b % 2) + 2 * a * (b / 2) = result + a * b := by
          have hdm : 2 * (b / 2) + b % 2 = b := Nat.div_add_mod b 2
          calc result + a * (b % 2) + 2 * a * (b / 2)
              = result + a * (2 * (b / 2) + b % 2) := by ring
            _ = result + a * b := by rw [hdm]
        rw [hfin] at hcomb
        exact hcomb
      · rw [hstep]
        have hC : mulModLoopC n (fuel + 1) a b result
            = mulModLoopC n fuel (qdouble n a) (b / 2)
                (if b % 2 = 1 then add_mod result a n else result) := by
          simp only [mulModLoopC, if_neg hb]
          have haddC : (if b % 2 = 1 then add_modC result a n else some result)
              = some (if b % 2 = 1 then add_mod result a n else result) := by
            by_cases hbit : b % 2 = 1
            · rw [if_pos hbit, if_pos hbit]; exact add_modC_eq hr ha hW
            · rw [if_neg hbit, if_neg hbit]
          rw [haddC, qdoubleC_eq ha hW]
        rw [hC]
        exact hrec.2

theorem mul_mod_eq {a b n : Nat} (hn : 1 ≤ n) (hW : n < W) :
    mul_mod a b n = a * b % n := by
  have h := (mulModLoop_spec hn hW (b % n + 1) (b % n) (a % n) 0
    (by omega) (Nat.mod_lt _ (by omega)) (by omega)).1
  unfold mul_mod
  rw [h, Nat.zero_add]
  rw [Nat.mod_eq_of_lt (Nat.mod_lt _ (by omega))]
  exact (Nat.mul_mod a b n).symm

/-! ## `mod_inverse` (src/math.rs, lines 43–90)

```rust
pub fn mod_inverse(mut a: U256, mut b: U256) -> U256 {
    struct U256WithSign { value: U256, is_negative: bool }
    if b <= 1 { return U256::ZERO; }
    let b0 = b;
    let mut x0 = U256WithSign { value: ZERO, is_negative: false };
    let mut x1 = U256WithSign { value: ONE, is_negative: false };
    while a > 1 {
        if b == 0 { return U256::ZERO; }
        let q = a / b;
        (b, a) = (a % b, b);
        let t = x0;
        let qx0 = q * x0.value;
        if x0.is_negative != x1.is_negative {
            x0.value = x1.value + qx0;
            x0.is_negative = x1.is_negative;
        } else if x1.value > qx0 {
            x0.value = x1.value - qx0;
            x0.is_negative = x1.is_negative;
        } else {
            x0.value = qx0 - x1.value;
            x0.is_negative = !x0.is_negative;
        }
        x1 = t;
    }
    if x1.is_negative { b0 - x1.value } else { x1.value }
}
```
-/

/-- The sign-and-magnitude integers used by `mod_inverse`. -/
structure U256WithSign where
  value : Nat
  is_negative : Bool
  deriving DecidableEq

/-- The signed integer a `U256WithSign` denotes. -/
def sval (x : U256WithSign) : Int :=
  if x.is_negative then -(x.value : Int) else (x.value : Int)

/-- The coefficient update of one iteration of the `mod_inverse` loop
(`x0.value`/`x0.is_negative` assignment), on wrapping U256 arithmetic. -/
def euStep (q : Nat) (x0 x1 : U256WithSign) : U256WithSign :=
  let qx0 := wmul q x0.value
  if x0.is_negative ≠ x1.is_negative then
    ⟨wadd x1.value qx0, x1.is_negative⟩
  else if qx0 < x1.value then
    ⟨wsub x1.value qx0, x1.is_negative⟩
  else
    ⟨wsub qx0 x1.value, !x0.is_negative⟩

/-- Overflow-checked variant of `euStep`: `none` if the multiplication or the
addition would wrap 256 bits (the two subtractions are guarded by the branch
conditions themselves and cannot wrap). -/
def euStepC (q : Nat) (x0 x1 : U256WithSign) : Option U256WithSign :=
  if q * x0.value < W then
    let qx0 := q * x0.value
    if x0.is_negative ≠ x1.is_negative then
      if x1.value + qx0 < W then some ⟨x1.value + qx0, x1.is_negative⟩ else none
    else if qx0 < x1.value then
      some ⟨x1.value - qx0, x1.is_negative⟩
    else
      some ⟨qx0 - x1.value, !x0.is_negative⟩
  else none

/-- The `while a > 1` loop of `mod_inverse`.  The loop terminates because `b`
strictly decreases; `fuel` only makes the recursion structural (any
`fuel > b` suffices). -/
def modInverseLoop (b0 : Nat) : Nat → Nat → Nat → U256WithSign → U256WithSign → Nat
  | 0, _, _, _, _ => 0
  | fuel + 1, a, b, x0, x1 =>
    if a ≤ 1 then
      if x1.is_negative then wsub b0 x1.value else x1.value
    else if b = 0 then 0
    else
      modInverseLoop b0 fuel b (a % b) (euStep (a / b) x0 x1) x0

/-- Overflow-checked variant of `modInverseLoop` (also guards the final
`b0 - x1.value` sign fold). -/
def modInverseLoopC (b0 : Nat) :
    Nat → Nat → Nat → U256WithSign → U256WithSign → Option Nat
  | 0, _, _, _, _ => none
  | fuel + 1, a, b, x0, x1 =>
    if a ≤ 1 then
      if x1.is_negative then
        if x1.value ≤ b0 then some (b0 - x1.value) else none
      else some x1.value
    else if b = 0 then some 0
    else
      match euStepC (a / b) x0 x1 with
      | none => none
      | some x0new => modInverseLoopC b0 fuel b (a % b) x0new x0

/-- Shallow embedding of `mod_inverse`. -/
def mod_inverse (a b : Nat) : Nat :=
  if b ≤ 1 then 0
  else modInverseLoop b (b + 2) a b ⟨0, false⟩ ⟨1, false⟩

theorem euStepC_eq {q : Nat} {x0 x1 : U256WithSign} {b0 : Nat}
    (hq : q * x0.value ≤ b0) (hsum : x1.value + q * x0.value ≤ b0) (hW : b0 < W) :
    euStepC q x0 x1 = some (euStep q x0 x1) := by
  unfold euStep euStepC
  have hm : wmul q x0.value = q * x0.value := wmul_eq (by omega)
  rw [if_pos (show q * x0.value < W by omega)]
  simp only [hm]
  by_cases hne : x0.is_negative ≠ x1.is_negative
  · rw [if_pos hne, if_pos hne, if_pos (show x1.value + q * x0.value < W by omega),
      wadd_eq (by omega)]
  · rw [if_neg hne, if_neg hne]
    by_cases hlt : q * x0.value < x1.value
    · rw [if_pos hlt, if_pos hlt, wsub_eq (by omega) (by omega)]
    · rw [if_neg hlt, if_neg hlt, wsub_eq (by omega) (by omega)]

theorem euStep_value_le {q : Nat} {x0 x1 : U256WithSign} {b0 : Nat}
    (hq : q * x0.value ≤ b0) (hsum : x1.value + q * x0.value ≤ b0) (hW : b0 < W) :
    (euStep q x0 x1).value ≤ x1.value + q * x0.value := by
  unfold euStep
  have hm : wmul q x0.value = q * x0.value := wmul_eq (by omega)
  simp only [hm]
  by_cases hne : x0.is_negative ≠ x1.is_negative
  · rw [if_pos hne]
    simp only []
    rw [wadd_eq (by omega)]
  · rw [if_neg hne]
    by_cases hlt : q * x0.value < x1.value
    · rw [if_pos hlt]
      simp only []
      rw [wsub_eq (by omega) (by omega)]
      omega
    · rw [if_neg hlt]
      simp only []
      rw [wsub_eq (by omega) (by omega)]
      omega

theorem euStep_sval {q : Nat} {x0 x1 : U256WithSign} {b0 : Nat}
    (hq : q * x0.value ≤ b0) (hsum : x1.value + q * x0.value ≤ b0) (hW : b0 < W) :
    sval (euStep q x0 x1) = sval x1 - (q : Int) * sval x0 := by
  obtain ⟨v0, s0⟩ := x0
  obtain ⟨v1, s1⟩ := x1
  simp only at hq hsum
  have hm : wmul q v0 = q * v0 := wmul_eq (by omega)
  cases s0 <;> cases s1
  · simp only [euStep, hm]
    rw [if_neg (by simp)]
    by_cases hlt : q * v0 < v1
    · rw [if_pos hlt, wsub_eq (by omega) (by omega)]
      simp only [sval, if_neg (by simp : ¬((false : Bool) = true))]
      push_cast
      omega
    · rw [if_neg hlt, wsub_eq (by omega) (by omega)]
      simp only [sval]
      norm_num
      all_goals (push_cast; omega)
  · simp only [euStep, hm]
    rw [if_pos (by simp)]
    rw [wadd_eq (by omega)]
    simp only [sval]
    norm_num
    all_goals (push_cast; ring)
  · simp only [euStep, hm]
    rw [if_pos (by simp)]
    rw [wadd_eq (by omega)]
    simp only [sval]
    norm_num
    all_goals (push_cast; ring)
  · simp only [euStep, hm]
    rw [if_neg (by simp)]
    by_cases hlt : q * v0 < v1
    · rw [if_pos hlt, wsub_eq (by omega) (by omega)]
      simp only [sval]
      norm_num
      all_goals (push_cast; omega)
    · rw [if_neg hlt, wsub_eq (by omega) (by omega)]
      simp only [sval]
      norm_num
      all_goals (push_cast; omega)

theorem not_one_modeq_zero {b0 : Nat} (hb0 : 2 ≤ b0) :
    ¬ ((1 : Int) ≡ 0 [ZMOD (b0 : Int)]) := by
  intro h
  have hd : (b0 : Int) ∣ (0 - 1) := Int.ModEq.dvd h
  rw [zero_sub] at hd
  have hd2 : (b0 : Int) ∣ 1 := (Int.dvd_neg).mp hd
  have := Int.le_of_dvd (by norm_num) hd2
  omega

/-- The invariant-carrying correctness statement for the `mod_inverse` loop:
the result stays below the original modulus, none of the wrapping U256
operations actually wraps (checked variant agrees), and the result is the
inverse of the original `a0` when `a0` and `b0` are coprime, `0` otherwise. -/
theorem modInverseLoop_spec (a0 b0 : Nat) (hb0 : 2 ≤ b0) (hbW : b0 < W) :
    ∀ fuel a b x0 x1, b < fuel → 1 ≤ a →
      x0.value * a + x1.value * b ≤ b0 →
      x0.value ≤ b0 → x1.value ≤ b0 →
      (a0 : Int) * sval x1 ≡ (a : Int) [ZMOD (b0 : Int)] →
      (a0 : Int) * sval x0 ≡ (b : Int) [ZMOD (b0 : Int)] →
      Nat.gcd a b = Nat.gcd a0 b0 →
      modInverseLoop b0 fuel a b x0 x1 < b0 ∧
      modInverseLoopC b0 fuel a b x0 x1 = some (modInverseLoop b0 fuel a b x0 x1) ∧
      (Nat.gcd a0 b0 = 1 → a0 * modInverseLoop b0 fuel a b x0 x1 % b0 = 1) ∧
      (Nat.gcd a0 b0 ≠ 1 → modInverseLoop b0 fuel a b x0 x1 = 0) := by
  intro fuel
  induction fuel with
  | zero => intro a b x0 x1 hfuel; omega
  | succ fuel ih =>
    intro a b x0 x1 hfuel ha hE hx0v hx1v hc1 hc0 hg
    by_cases ha1 : a ≤ 1
    · -- loop exit: `a = 1`, fold the sign of `x1`
      have haeq : a = 1 := by omega
      subst haeq
      have hg1 : Nat.gcd a0 b0 = 1 := by
        rw [← hg]; exact Nat.gcd_one_left b
      have hstep : modInverseLoop b0 (fuel + 1) 1 b x0 x1
          = if x1.is_negative then wsub b0 x1.value else x1.value := by
        simp [modInverseLoop]
      have hstepC : modInverseLoopC b0 (fuel + 1) 1 b x0 x1
          = if x1.is_negative then
              (if x1.value ≤ b0 then some (b0 - x1.value) else none)
            else some x1.value := by
        simp [modInverseLoopC]
      rw [Nat.cast_one] at hc1
      cases hneg : x1.is_negative
      · have hsv : sval x1 = (x1.value : Int) := by simp [sval, hneg]
        rw [hsv] at hc1
        have hlt : x1.value < b0 := by
          rcases Nat.lt_or_ge x1.value b0 with h | h
          · exact h
          · exfalso
            have hv : x1.value = b0 := by omega
            rw [hv] at hc1
            have hz : (a0 : Int) * (b0 : Int) ≡ 0 [ZMOD (b0 : Int)] :=
              (Int.modEq_zero_iff_dvd).mpr (dvd_mul_left _ _)
            exact not_one_modeq_zero hb0 (hc1.symm.trans hz)
        rw [hstep, hstepC, if_neg (by simp [hneg]), if_neg (by simp [hneg])]
        refine ⟨hlt, rfl, ?_, fun h => absurd hg1 h⟩
        intro _
        have h1 : ((a0 : Int) * x1.value) % (b0 : Int) = 1 % (b0 : Int) := hc1
        rw [show (1 : Int) % (b0 : Int) = 1 from
          Int.emod_eq_of_lt (by norm_num) (by exact_mod_cast (by omega : 1 < b0))] at h1
        have h2 : ((a0 * x1.value % b0 : Nat) : Int) = 1 := by push_cast; exact h1
        exact_mod_cast h2
      · have hsv : sval x1 = -(x1.value : Int) := by simp [sval, hneg]
        rw [hsv] at hc1
        have hpos : 1 ≤ x1.value := by
          by_contra h
          have hv : x1.value = 0 := by omega
          rw [hv] at hc1
          simp at hc1
          exact not_one_modeq_zero hb0 hc1.symm
        rw [hstep, hstepC, if_pos (by simp [hneg]), if_pos (by simp [hneg]),
          if_pos hx1v, wsub_eq hx1v hbW]
        refine ⟨by omega, rfl, ?_, fun h => absurd hg1 h⟩
        intro _
        have hr : ((b0 - x1.value : Nat) : Int) = (b0 : Int) - x1.value := by omega
        have hcong : (a0 : Int) * ((b0 - x1.value : Nat) : Int) ≡ 1 [ZMOD (b0 : Int)] := by
          rw [hr]
          have h1 : ((b0 : Int) - x1.value) ≡ 0 - (x1.value : Int) [ZMOD (b0 : Int)] :=
            Int.ModEq.sub_right _ ((Int.modEq_zero_iff_dvd).mpr dvd_rfl)
          rw [zero_sub] at h1
          exact (Int.ModEq.mul_left (a0 : Int) h1).trans hc1
        have h1 : ((a0 : Int) * ((b0 - x1.value : Nat) : Int)) % (b0 : Int)
            = 1 % (b0 : Int) := hcong
        rw [show (1 : Int) % (b0 : Int) = 1 from
          Int.emod_eq_of_lt (by norm_num) (by exact_mod_cast (by omega : 1 < b0))] at h1
        have h2 : ((a0 * (b0 - x1.value) % b0 : Nat) : Int) = 1 := by push_cast; exact h1
        exact_mod_cast h2
    · by_cases hb : b = 0
      · -- in-loop `b == 0` early return: gcd is `a ≥ 2`, not coprime
        subst hb
        have hstep : modInverseLoop b0 (fuel + 1) a 0 x0 x1 = 0 := by
          simp [modInverseLoop, ha1]
        have hstepC : modInverseLoopC b0 (fuel + 1) a 0 x0 x1 = some 0 := by
          simp [modInverseLoopC, ha1]
        have hgne : Nat.gcd a0 b0 ≠ 1 := by
          rw [← hg]
          simp only [Nat.gcd_zero_right]
          omega
        rw [hstep, hstepC]
        exact ⟨by omega, rfl, fun h => absurd h hgne, fun _ => rfl⟩
      · -- one loop iteration
        have hb1 : 1 ≤ b := by omega
        have hmod : a % b < b := Nat.mod_lt _ (by omega)
        have hqb : a / b * b ≤ a := Nat.div_mul_le_self a b
        have hdm : b * (a / b) + a % b = a := Nat.div_add_mod a b
        have hq : a / b * x0.value ≤ b0 := by
          have h1 : a / b * x0.value * b = x0.value * (a / b * b) := by ring
          have h2 : x0.value * (a / b * b) ≤ x0.value * a :=
            Nat.mul_le_mul_left _ hqb
          have h3 : x0.value * a ≤ b0 := le_trans (Nat.le_add_right _ _) hE
          have h4 : a / b * x0.value ≤ a / b * x0.value * b :=
            Nat.le_mul_of_pos_right _ (by omega)
          omega
        have hsum : x1.value + a / b * x0.value ≤ b0 := by
          have h1 : (x1.value + a / b * x0.value) * b
              = x1.value * b + x0.value * (a / b * b) := by ring
          have h2 : x0.value * (a / b * b) ≤ x0.value * a :=
            Nat.mul_le_mul_left _ hqb
          have h4 : x1.value + a / b * x0.value
              ≤ (x1.value + a / b * x0.value) * b :=
            Nat.le_mul_of_pos_right _ (by omega)
          omega
        have hstep : modInverseLoop b0 (fuel + 1) a b x0 x1
            = modInverseLoop b0 fuel b (a % b) (euStep (a / b) x0 x1) x0 := by
          simp [modInverseLoop, ha1, hb]
        have hstepC : modInverseLoopC b0 (fuel + 1) a b x0 x1
            = modInverseLoopC b0 fuel b (a % b) (euStep (a / b) x0 x1) x0 := by
          simp [modInverseLoopC, ha1, hb, euStepC_eq hq hsum hbW]
        have hval : (euStep (a / b) x0 x1).value ≤ x1.value + a / b * x0.value :=
          euStep_value_le hq hsum hbW
        have hE2 : (euStep (a / b) x0 x1).value * b + x0.value * (a % b) ≤ b0 := by
          have h1 : (euStep (a / b) x0 x1).value * b
              ≤ (x1.value + a / b * x0.value) * b :=
            Nat.mul_le_mul_right _ hval
          have h2 : (x1.value + a / b * x0.value) * b + x0.value * (a % b)
              = x1.value * b + x0.value * (b * (a / b) + a % b) := by ring
          have h3 : x1.value * b + x0.value * (b * (a / b) + a % b)
              = x1.value * b + x0.value * a := by rw [hdm]
          omega
        have hx0v2 : (euStep (a / b) x0 x1).value ≤ b0 := by omega
        have hc0' : (a0 : Int) * sval (euStep (a / b) x0 x1)
            ≡ ((a % b : Nat) : Int) [ZMOD (b0 : Int)] := by
          rw [euStep_sval hq hsum hbW]
          have h1 : (a0 : Int) * (sval x1 - ((a / b : Nat) : Int) * sval x0)
              = a0 * sval x1 - ((a / b : Nat) : Int) * ((a0 : Int) * sval x0) := by
            ring
          rw [h1]
          have h2 : (a0 : Int) * sval x1 - ((a / b : Nat) : Int) * ((a0 : Int) * sval x0)
              ≡ (a : Int) - ((a / b : Nat) : Int) * (b : Int) [ZMOD (b0 : Int)] :=
            Int.ModEq.sub hc1 (Int.ModEq.mul_left _ hc0)
          have h3 : ((a % b : Nat) : Int) = (a : Int) - ((a / b : Nat) : Int) * (b : Int) := by
            have h4 : (b : Int) * ((a / b : Nat) : Int) + ((a % b : Nat) : Int) = (a : Int) := by
              exact_mod_cast congrArg (Nat.cast : Nat → Int) hdm
            linarith
          rw [h3]
          exact h2
        have hg' : Nat.gcd b (a % b) = Nat.gcd a0 b0 := by
          rw [← hg]
          calc Nat.gcd b (a % b) = Nat.gcd (a % b) b := Nat.gcd_comm _ _
            _ = Nat.gcd b a := (Nat.gcd_rec b a).symm
            _ = Nat.gcd a b := Nat.gcd_comm _ _
        have hrec := ih b (a % b) (euStep (a / b) x0 x1) x0 (by omega) hb1 hE2
          hx0v2 hx0v hc0 hc0' hg'
        obtain ⟨hr1, hr2, hr3, hr4⟩ := hrec
        refine ⟨?_, ?_, ?_, ?_⟩
        · rw [hstep]; exact hr1
        · rw [hstep, hstepC]; exact hr2
        · intro h; rw [hstep]; exact hr3 h
        · intro h; rw [hstep]; exact hr4 h

theorem mod_inverse_spec (a n : Nat) (hn : 2 ≤ n) (hW : n < W) (ha : 1 ≤ a) :
    mod_inverse a n < n ∧
    modInverseLoopC n (n + 2) a n ⟨0, false⟩ ⟨1, false⟩ = some (mod_inverse a n) ∧
    (Nat.gcd a n = 1 → a * mod_inverse a n % n = 1) ∧
    (Nat.gcd a n ≠ 1 → mod_inverse a n = 0) := by
  have hmi : mod_inverse a n = modInverseLoop n (n + 2) a n ⟨0, false⟩ ⟨1, false⟩ := by
    unfold mod_inverse
    rw [if_neg (by omega)]
  have h := modInverseLoop_spec a n hn hW (n + 2) a n ⟨0, false⟩ ⟨1, false⟩
    (by omega) ha
    (show 0 * a + 1 * n ≤ n by omega)
    (show 0 ≤ n by omega)
    (show 1 ≤ n by omega)
    (by
      show (a : Int) * sval ⟨1, false⟩ ≡ (a : Int) [ZMOD (n : Int)]
      have h1 : sval ⟨1, false⟩ = 1 := by simp [sval]
      rw [h1, mul_one])
    (by
      show (a : Int) * sval ⟨0, false⟩ ≡ (n : Int) [ZMOD (n : Int)]
      have h1 : sval ⟨0, false⟩ = 0 := by simp [sval]
      rw [h1, mul_zero]
      exact ((Int.modEq_zero_iff_dvd).mpr dvd_rfl).symm)
    rfl
  rw [← hmi] at h
  exact h

theorem mod_inverse_zero_left (n : Nat) (hn : 2 ≤ n) : mod_inverse 0 n = 1 := by
  unfold mod_inverse
  rw [if_neg (by omega)]
  have h2 : n + 2 = (n + 1) + 1 := rfl
  rw [h2]
  simp [modInverseLoop]

theorem modInverseLoopC_zero_left (n : Nat) (hn : 2 ≤ n) :
    modInverseLoopC n (n + 2) 0 n ⟨0, false⟩ ⟨1, false⟩ = some 1 := by
  have h2 : n + 2 = (n + 1) + 1 := rfl
  rw [h2]
  simp [modInverseLoopC]

/-! ## Claim theorems for the modular arithmetic (claims C5, C6, C7, C8, C9, C10) -/

/-- Claim C5: for `a, b < n < 2^256`, `add_mod a b n` is `(a + b) % n`, lies in
`[0, n)`, and the headroom computation never wraps 256 bits (the checked
variant succeeds with the same value). -/
theorem claim_add_mod_correct (a b n : Nat) (ha : a < n) (hb : b < n) (hn : n < W) :
    add_mod a b n = (a + b) % n ∧ add_mod a b n < n ∧
    add_modC a b n = some (add_mod a b n) :=
  ⟨add_mod_eq ha hb hn, add_mod_lt ha hb hn, add_modC_eq ha hb hn⟩

theorem claim_add_mod_correct_witness :
    add_mod 3 4 5 = (3 + 4) % 5 ∧ add_mod 3 4 5 < 5 ∧
    add_modC 3 4 5 = some (add_mod 3 4 5) :=
  claim_add_mod_correct 3 4 5 (by decide) (by decide) (by decide)

/-- Claim C6: for `a, b < n`, `1 ≤ n < 2^256`, `mul_mod a b n` is `(a * b) % n`,
lies in `[0, n)`, and every step of the double-and-add loop (including the
overflow-safe doubling) stays within 256 bits (checked loop succeeds). -/
theorem claim_mul_mod_correct (a b n : Nat) (ha : a < n) (hb : b < n)
    (hn1 : 1 ≤ n) (hn : n < W) :
    mul_mod a b n = a * b % n ∧ mul_mod a b n < n ∧
    mulModLoopC n (b % n + 1) (a % n) (b % n) 0
      = some (mulModLoop n (b % n + 1) (a % n) (b % n) 0) := by
  refine ⟨mul_mod_eq hn1 hn, ?_, ?_⟩
  · rw [mul_mod_eq hn1 hn]
    exact Nat.mod_lt _ (by omega)
  · exact (mulModLoop_spec hn1 hn (b % n + 1) (b % n) (a % n) 0
      (by omega) (Nat.mod_lt _ (by omega)) (by omega)).2

theorem claim_mul_mod_correct_witness :
    mul_mod 3 4 5 = 3 * 4 % 5 ∧ mul_mod 3 4 5 < 5 ∧
    mulModLoopC 5 (4 % 5 + 1) (3 % 5) (4 % 5) 0
      = some (mulModLoop 5 (4 % 5 + 1) (3 % 5) (4 % 5) 0) :=
  claim_mul_mod_correct 3 4 5 (by decide) (by decide) (by decide) (by decide)

/-- Claim C7: for `n > 1` and `a ∈ [1, n)` coprime to `n`, `mod_inverse a n`
is the multiplicative inverse of `a` modulo `n`:
`mul_mod a (mod_inverse a n) n = 1`. -/
theorem claim_mod_inverse_correct (a n : Nat) (hn : 1 < n) (hW : n < W)
    (ha1 : 1 ≤ a) (ha : a < n) (hg : Nat.gcd a n = 1) :
    mul_mod a (mod_inverse a n) n = 1 := by
  rw [mul_mod_eq (by omega) hW]
  exact (mod_inverse_spec a n hn hW ha1).2.2.1 hg

theorem claim_mod_inverse_correct_witness : mul_mod 3 (mod_inverse 3 7) 7 = 1 :=
  claim_mod_inverse_correct 3 7 (by decide) (by decide) (by decide) (by decide)
    (by decide)

/-- Claim C8 counterexample: the degenerate input `a = 0`, `n = 3` (with
`n > 1` and `gcd a n = 3 ≠ 1`, so the claim demands a result of `0`) actually
returns `1`: the `while a > 1` loop is skipped and the initial `x1 = 1` is
returned unchanged. -/
theorem claim_mod_inverse_degenerate_counterexample :
    Nat.gcd 0 3 ≠ 1 ∧ 1 < 3 ∧ mod_inverse 0 3 = 1 := by decide

/-- Claim C8 (amended): `mod_inverse a n` returns `0` when `n ≤ 1`, and when
`a ≥ 2` is not coprime to `n`; but for the degenerate input `a = 0` with
`n > 1` it returns `1` (the loop never runs). -/
theorem claim_mod_inverse_degenerate (a n : Nat) :
    (n ≤ 1 → mod_inverse a n = 0) ∧
    (2 ≤ a → n < W → Nat.gcd a n ≠ 1 → mod_inverse a n = 0) ∧
    (a = 0 → 2 ≤ n → mod_inverse a n = 1) := by
  refine ⟨?_, ?_, ?_⟩
  · intro h
    unfold mod_inverse
    rw [if_pos h]
  · intro ha hW hg
    by_cases hn : n ≤ 1
    · unfold mod_inverse
      rw [if_pos hn]
    · exact (mod_inverse_spec a n (by omega) hW (by omega)).2.2.2 hg
  · intro ha hn
    subst ha
    exact mod_inverse_zero_left n hn

theorem claim_mod_inverse_degenerate_witness :
    mod_inverse 4 6 = 0 ∧ mod_inverse 0 5 = 1 :=
  ⟨(claim_mod_inverse_degenerate 4 6).2.1 (by decide) (by decide) (by decide),
   (claim_mod_inverse_degenerate 0 5).2.2 rfl (by decide)⟩

/-- Claim C9: for `a, b ∈ [0, n)` with `n < 2^256`, `sub_mod a b n` computes
`(a - b) mod n` (that is, `a - b` when `a ≥ b` and `n - (b - a)` otherwise),
and it inverts `add_mod`: `sub_mod (add_mod a b n) b n = a`. -/
theorem claim_sub_mod_correct (a b n : Nat) (ha : a < n) (hb : b < n) (hn : n < W) :
    sub_mod a b n = (if b ≤ a then a - b else n - (b - a)) ∧
    (sub_mod a b n : Int) = ((a : Int) - (b : Int)) % (n : Int) ∧
    sub_mod (add_mod a b n) b n = a :=
  ⟨sub_mod_eq ha hb hn, sub_mod_int_eq ha hb hn, sub_mod_add_mod ha hb hn⟩

theorem claim_sub_mod_correct_witness :
    sub_mod 2 4 7 = (if 4 ≤ 2 then 2 - 4 else 7 - (4 - 2)) ∧
    (sub_mod 2 4 7 : Int) = ((2 : Int) - (4 : Int)) % (7 : Int) ∧
    sub_mod (add_mod 2 4 7) 4 7 = 2 :=
  claim_sub_mod_correct 2 4 7 (by decide) (by decide) (by decide)

/-- Claim C10: for `n > 1` and `a < n`, `mod_inverse a n` terminates with a
value in `[0, n)`, and none of the unsigned operations inside the
sign-tracked extended Euclidean loop (the products `q * x0.value`, the
additions, the subtractions guarded by the branch conditions, and the final
sign fold `b0 - x1.value`) wraps around 256 bits: the fully-guarded checked
loop succeeds and agrees with the wrapping one. -/
theorem claim_mod_inverse_safety (a n : Nat) (hn : 1 < n) (hW : n < W) (ha : a < n) :
    mod_inverse a n < n ∧
    modInverseLoopC n (n + 2) a n ⟨0, false⟩ ⟨1, false⟩ = some (mod_inverse a n) := by
  by_cases ha0 : a = 0
  · subst ha0
    rw [mod_inverse_zero_left n (by omega), modInverseLoopC_zero_left n (by omega)]
    exact ⟨by omega, rfl⟩
  · have h := mod_inverse_spec a n (by omega) hW (by omega)
    exact ⟨h.1, h.2.1⟩

theorem claim_mod_inverse_safety_witness :
    mod_inverse 3 5 < 5 ∧
    modInverseLoopC 5 (5 + 2) 3 5 ⟨0, false⟩ ⟨1, false⟩ = some (mod_inverse 3 5) :=
  claim_mod_inverse_safety 3 5 (by decide) (by decide) (by decide)

/-! ## Elliptic curve operations (src/math.rs, lines 92–166)

`Point` is an affine point; the Rust `add_points` `assert!(y1 == y2 && y1 != 0)`
and the `result.unwrap()` in `scalar_multiply` are panics, embedded as `none`.
-/

/-- Affine point `(x, y)`. -/
def Point : Type := Nat × Nat

instance : DecidableEq Point := instDecidableEqProd

/-- The curve-constants record (`b` is carried but unused, as in the source). -/
structure Curve where
  a : Nat
  b : Nat
  p : Nat
  g : Point
  n : Nat

/-- Shallow embedding of `Curve::add_points`; `none` is the
`assert!(y1 == y2 && y1 != 0)` panic. -/
def add_points (c : Curve) (p1 p2 : Point) : Option Point :=
  let x1 := p1.1
  let y1 := p1.2
  let x2 := p2.1
  let y2 := p2.2
  let mOpt : Option Nat :=
    if x1 = x2 then
      if y1 = y2 ∧ y1 ≠ 0 then
        some (mul_mod
          (add_mod (mul_mod (mul_mod x1 x1 c.p) 3 c.p) c.a c.p)
          (mod_inverse (mul_mod 2 y1 c.p) c.p) c.p)
      else none
    else
      some (mul_mod (sub_mod y2 y1 c.p) (mod_inverse (sub_mod x2 x1 c.p) c.p) c.p)
  match mOpt with
  | none => none
  | some m =>
    let x3 := sub_mod (sub_mod (mul_mod m m c.p) x1 c.p) x2 c.p
    let y3 := sub_mod (mul_mod m (sub_mod x1 x3 c.p) c.p) y1 c.p
    some (x3, y3)

/-- The `while k != 0` loop of `Curve::scalar_multiply`.  The accumulator is
`Option Point` exactly as the Rust `Option<Point>`; the outer `Option` is
panic propagation from `add_points`.  `fuel` only makes the halving loop
structural (any `fuel > k` suffices). -/
def scalarMulLoop (c : Curve) :
    Nat → Nat → Point → Option Point → Option (Option Point)
  | 0, _, _, acc => some acc
  | fuel + 1, k, addend, acc =>
    if k = 0 then some acc
    else
      match (if k % 2 = 1 then
               match acc with
               | none => some (some addend)
               | some pt =>
                 match add_points c pt addend with
                 | none => none
                 | some q => some (some q)
             else some acc) with
      | none => none
      | some acc2 =>
        match add_points c addend addend with
        | none => none
        | some addend2 => scalarMulLoop c fuel (k / 2) addend2 acc2

/-- Shallow embedding of `Curve::scalar_multiply`; the final
`result.unwrap()` panics (returns `none`) when the accumulator is absent,
i.e. when `k = 0`. -/
def scalar_multiply (c : Curve) (k : Nat) (pt : Point) : Option Point :=
  match scalarMulLoop c (k + 1) k pt none with
  | none => none
  | some none => none
  | some (some q) => some q

/-! ## Precomputed signature table (src/insecure_ecdsa.rs, lines 7–49) -/

/-- The secp256k1 constants (src/insecure_ecdsa.rs, lines 7–16; the
`U256::from_words(hi, lo)` pairs are written as single 256-bit values). -/
def SECP256K1 : Curve where
  a := 0
  b := 7
  p := 0xfffffffffffffffffffffffffffffffffffffffffffffffffffffffefffffc2f
  g := (0x79be667ef9dcbbac55a06295ce870b07029bfcdb2dce28d959f2815b16f81798,
        0x483ada7726a3c4655da4fbfc0e1108a8fd17b448a68554199c47d08ffb10d4b8)
  n := 0xfffffffffffffffffffffffffffffffebaaedce6af48a03bbfd25e8cd0364141

/-- One table entry: `(k⁻¹·r mod n, r)`. -/
structure ConstantTableEntry where
  k_pow_neg1_times_r : Nat
  r : Nat
  deriving DecidableEq

/-- The body of one iteration of the `for i in 0..256` loop of
`generate_ecdsa_constants` (`U256::ONE << i` is `2 ^ i` truncated to 256
bits); `none` propagates a panic from `scalar_multiply`. -/
def constantEntry (c : Curve) (i : Nat) : Option ConstantTableEntry :=
  let k_pow_neg1 := 2 ^ i % W
  let k := mod_inverse k_pow_neg1 c.n
  match scalar_multiply c k c.g with
  | none => none
  | some point =>
    let r := point.1 % c.n
    some ⟨mul_mod k_pow_neg1 r c.n, r⟩

/-- The `for i in 0..256` loop of `generate_ecdsa_constants`, pushing entries
in index order starting from index `i`. -/
def genConstantsFrom (c : Curve) : Nat → Nat → Option (List ConstantTableEntry)
  | _, 0 => some []
  | i, count + 1 =>
    match constantEntry c i with
    | none => none
    | some e =>
      match genConstantsFrom c (i + 1) count with
      | none => none
      | some rest => some (e :: rest)

/-- Shallow embedding of `generate_ecdsa_constants`. -/
def generate_ecdsa_constants (c : Curve) : Option (List ConstantTableEntry) :=
  genConstantsFrom c 0 256

theorem genConstantsFrom_spec (c : Curve) :
    ∀ count i L, genConstantsFrom c i count = some L →
      L.length = count ∧
      ∀ j (hj : j < count) (hj2 : j < L.length),
        constantEntry c (i + j) = some (L.get ⟨j, hj2⟩) := by
  intro count
  induction count with
  | zero =>
    intro i L h
    simp only [genConstantsFrom] at h
    cases h
    exact ⟨rfl, by omega⟩
  | succ count ih =>
    intro i L h
    simp only [genConstantsFrom] at h
    cases he : constantEntry c i with
    | none => rw [he] at h; cases h
    | some e =>
      rw [he] at h
      cases hr : genConstantsFrom c (i + 1) count with
      | none => rw [hr] at h; cases h
      | some rest =>
        rw [hr] at h
        cases h
        obtain ⟨hlen, hget⟩ := ih (i + 1) rest hr
        refine ⟨by simp [hlen], ?_⟩
        intro j hj hj2
        cases j with
        | zero => simpa using he
        | succ j =>
          have hj3 : j < rest.length := by simp at hj2; omega
          have := hget j (by omega) hj3
          simpa [Nat.add_assoc, Nat.add_comm 1 j, Nat.add_left_comm] using this

/-- Structural part of claim C2: whenever `generate_ecdsa_constants` runs to
completion without a panic, it returns exactly 256 entries in index order,
and entry `i` is `(mul_mod (2^i) r n, r)` with `r` the x-coordinate of
`scalar_multiply (mod_inverse (2^i) n) G` reduced mod `n`.  (That no panic
occurs on secp256k1 is not established here; it depends on the group
structure of the concrete curve.) -/
theorem generate_ecdsa_constants_structure (c : Curve) (L : List ConstantTableEntry)
    (h : generate_ecdsa_constants c = some L) :
    L.length = 256 ∧
    ∀ j (hj : j < 256) (hj2 : j < L.length),
      ∃ pt, scalar_multiply c (mod_inverse (2 ^ j % W) c.n) c.g = some pt ∧
        L.get ⟨j, hj2⟩ = ⟨mul_mod (2 ^ j % W) (pt.1 % c.n) c.n, pt.1 % c.n⟩ := by
  obtain ⟨hlen, hget⟩ := genConstantsFrom_spec c 256 0 L h
  refine ⟨hlen, ?_⟩
  intro j hj hj2
  have he := hget j hj hj2
  rw [Nat.zero_add] at he
  unfold constantEntry at he
  dsimp only at he
  cases hsm : scalar_multiply c (mod_inverse (2 ^ j % W) c.n) c.g with
  | none => rw [hsm] at he; cases he
  | some pt =>
    rw [hsm] at he
    simp only [Option.some.injEq] at he
    exact ⟨pt, rfl, he.symm⟩

/-! ## Signature generation (src/insecure_ecdsa.rs, lines 51–84)

```rust
pub fn generate_signatures(data_buf, constants, curve) -> Vec<String> {
    let hash = Sha256::digest(data_buf);
    let mut digest = U256::from_be_bytes(hash);
    for entry in constants {
        digest %= curve.n;
        let mut s = add_mod(digest, entry.k_pow_neg1_times_r, curve.n);
        assert_ne!(s, 0, "signature result is 0");
        if s > curve.n / 2 { s = curve.n - s; }
        if digest < curve.n - digest { digest <<= 1; } else { digest -= curve.n - digest; }
        let mut sig_buf = [0u8; 64];
        sig_buf[0..32].copy_from_slice(&entry.r.to_be_bytes());
        sig_buf[32..64].copy_from_slice(&s.to_be_bytes());
        signatures.push(BASE64_URL_SAFE_NO_PAD.encode(sig_buf));
    }
    signatures
}
```

`Sha256::digest` and the base64 encoder come from external crates (out of
scope per the spec); the embedding takes the 32 hash bytes as input and
models the encoder per RFC 4648 §5 (base64url, no padding).
-/

/-- Big-endian interpretation of a byte string (`U256::from_be_bytes`). -/
def fromBeBytes (l : List Nat) : Nat :=
  l.foldl (fun acc byte => acc * 256 + byte) 0

/-- The `k`-byte big-endian encoding of the low `k` bytes of `v`
(`U256::to_be_bytes` is the case `k = 32`). -/
def toBeBytes : Nat → Nat → List Nat
  | 0, _ => []
  | k + 1, v => toBeBytes k (v / 256) ++ [v % 256]

/-- The base64url alphabet (RFC 4648 §5). -/
def b64Alphabet : List Char :=
  "ABCDEFGHIJKLMNOPQRSTUVWXYZabcdefghijklmnopqrstuvwxyz0123456789-_".data

/-- The base64url character for a 6-bit group. -/
def b64Char (i : Nat) : Char := b64Alphabet.getD i 'A'

/-- base64url encoding without padding of a byte string, per RFC 4648 §5
(the behaviour of `base64::prelude::BASE64_URL_SAFE_NO_PAD`). -/
def b64Encode : List Nat → List Char
  | [] => []
  | [b1] => [b64Char (b1 / 4), b64Char (b1 % 4 * 16)]
  | [b1, b2] =>
    [b64Char (b1 / 4), b64Char (b1 % 4 * 16 + b2 / 16), b64Char (b2 % 16 * 4)]
  | b1 :: b2 :: b3 :: rest =>
    b64Char (b1 / 4) :: b64Char (b1 % 4 * 16 + b2 / 16) ::
      b64Char (b2 % 16 * 4 + b3 / 64) :: b64Char (b3 % 64) :: b64Encode rest

/-- The character content of one encoded signature: `r` then `s`, each 32
bytes big-endian, then base64url-no-pad (src/insecure_ecdsa.rs, lines
75–79). -/
def encodeSigChars (rs : Nat × Nat) : List Char :=
  b64Encode (toBeBytes 32 rs.1 ++ toBeBytes 32 rs.2)

/-- The encoded signature string pushed into the output vector. -/
def encodeSig (rs : Nat × Nat) : String :=
  String.mk (encodeSigChars rs)

theorem string_data_mk (l : List Char) : (String.mk l).data = l := rfl

theorem encodeSig_data (rs : Nat × Nat) : (encodeSig rs).data = encodeSigChars rs := by
  rw [show encodeSig rs = String.mk (encodeSigChars rs) from rfl, string_data_mk]

/-- The per-entry loop of `generate_signatures`, producing the `(r, s)` pairs
in table order; `none` is the `assert_ne!(s, 0)` panic.  The bottom-of-loop
in-place doubling of the (already reduced) digest is `qdouble`. -/
def sigPairs (n : Nat) (digest : Nat) :
    List ConstantTableEntry → Option (List (Nat × Nat))
  | [] => some []
  | entry :: rest =>
    let d := digest % n
    let s := add_mod d entry.k_pow_neg1_times_r n
    if s = 0 then none
    else
      let s2 := if n / 2 < s then wsub n s else s
      match sigPairs n (qdouble n d) rest with
      | none => none
      | some l => some ((entry.r, s2) :: l)

/-- Shallow embedding of `generate_signatures`, from the `Sha256::digest`
boundary on: `hashBytes` are the 32 hash bytes of the document buffer. -/
def generate_signatures (hashBytes : List Nat)
    (constants : List ConstantTableEntry) (c : Curve) : Option (List String) :=
  (sigPairs c.n (fromBeBytes hashBytes) constants).map (fun l => l.map encodeSig)

/-- The running digest entering iteration `i` of the `generate_signatures`
loop, starting from the big-endian hash value `e`: reduced mod `n` at the top
of each iteration, quasi-doubled at the bottom. -/
def digestAt (n e : Nat) : Nat → Nat
  | 0 => e
  | i + 1 => qdouble n (digestAt n e i % n)

/-- The raw (pre-normalization) `s` computed at iteration `i` for table
constant `cst`, as dictated by the digest invariant. -/
def rawS (n e i cst : Nat) : Nat := add_mod (2 ^ i * e % n) cst n

/-- Low-s normalization. -/
def lowS (n s : Nat) : Nat := if n / 2 < s then n - s else s

theorem digestAt_mod {n e : Nat} (hn : 0 < n) (hW : n < W) :
    ∀ i, digestAt n e i % n = 2 ^ i * e % n := by
  intro i
  induction i with
  | zero => simp [digestAt]
  | succ i ih =>
    have hd : digestAt n e i % n < n := Nat.mod_lt _ hn
    calc digestAt n e (i + 1) % n
        = qdouble n (digestAt n e i % n) % n := rfl
      _ = 2 * (digestAt n e i % n) % n := qdouble_modeq hd hW
      _ = 2 * (2 ^ i * e % n) % n := by rw [ih]
      _ = 2 * (2 ^ i * e) % n := Nat.ModEq.mul_left 2 (Nat.mod_modEq _ _)
      _ = 2 ^ (i + 1) * e % n := by rw [pow_succ]; ring_nf

/-- Claim C1: entering iteration `i` of the `generate_signatures` loop, the
reduced digest (the first argument of `add_mod`) equals `(2^i · e) mod n`;
the quasi-doubling at the bottom of the iteration receives exactly that
already-reduced value in `[0, n)` and produces a value congruent to twice it
modulo `n`, which is the digest entering iteration `i + 1`. -/
theorem claim_digest_invariant (e n i : Nat) (hn : 0 < n) (hW : n < W) :
    digestAt n e i % n = 2 ^ i * e % n ∧
    digestAt n e i % n < n ∧
    qdouble n (digestAt n e i % n) ≡ 2 * (digestAt n e i % n) [MOD n] ∧
    digestAt n e (i + 1) = qdouble n (digestAt n e i % n) ∧
    (∀ (t : ConstantTableEntry) (rest : List ConstantTableEntry),
      sigPairs n (digestAt n e i) (t :: rest) =
        (let s := add_mod (2 ^ i * e % n) t.k_pow_neg1_times_r n
         if s = 0 then none
         else
           match sigPairs n (digestAt n e (i + 1)) rest with
           | none => none
           | some l => some ((t.r, if n / 2 < s then wsub n s else s) :: l))) := by
  have hd : digestAt n e i % n < n := Nat.mod_lt _ hn
  refine ⟨digestAt_mod hn hW i, hd, qdouble_modeq hd hW, rfl, ?_⟩
  intro t rest
  simp only [sigPairs]
  have h1 : digestAt n e (i + 1) = qdouble n (digestAt n e i % n) := rfl
  rw [h1, digestAt_mod hn hW i]

theorem claim_digest_invariant_witness :
    digestAt 5 3 4 % 5 = 2 ^ 4 * 3 % 5 ∧
    digestAt 5 3 4 % 5 < 5 ∧
    qdouble 5 (digestAt 5 3 4 % 5) ≡ 2 * (digestAt 5 3 4 % 5) [MOD 5] ∧
    digestAt 5 3 (4 + 1) = qdouble 5 (digestAt 5 3 4 % 5) ∧
    (∀ (t : ConstantTableEntry) (rest : List ConstantTableEntry),
      sigPairs 5 (digestAt 5 3 4) (t :: rest) =
        (let s := add_mod (2 ^ 4 * 3 % 5) t.k_pow_neg1_times_r 5
         if s = 0 then none
         else
           match sigPairs 5 (digestAt 5 3 (4 + 1)) rest with
           | none => none
           | some l => some ((t.r, if 5 / 2 < s then wsub 5 s else s) :: l))) :=
  claim_digest_invariant 3 5 4 (by decide) (by decide)

/-- The specified `(r, s)` output pairs for table entries starting at index
`i`. -/
def specList (n e : Nat) : Nat → List ConstantTableEntry → List (Nat × Nat)
  | _, [] => []
  | i, t :: rest =>
    (t.r, lowS n (rawS n e i t.k_pow_neg1_times_r)) :: specList n e (i + 1) rest

theorem specList_length (n e : Nat) :
    ∀ T i, (specList n e i T).length = T.length := by
  intro T
  induction T with
  | nil => intro i; rfl
  | cons t rest ih => intro i; simp [specList, ih]

theorem specList_get (n e : Nat) :
    ∀ T i j (hj : j < T.length) (hj2 : j < (specList n e i T).length),
      (specList n e i T).get ⟨j, hj2⟩ =
        ((T.get ⟨j, hj⟩).r,
          lowS n (rawS n e (i + j) (T.get ⟨j, hj⟩).k_pow_neg1_times_r)) := by
  intro T
  induction T with
  | nil => intro i j hj; simp at hj
  | cons t rest ih =>
    intro i j hj hj2
    cases j with
    | zero => simp [specList]
    | succ j =>
      have hj3 : j < rest.length := by
        have := hj
        simp at this
        omega
      have hj4 : j < (specList n e (i + 1) rest).length := by
        rw [specList_length]
        exact hj3
      have hrec := ih (i + 1) j hj3 hj4
      have harith : i + 1 + j = i + (j + 1) := by omega
      rw [harith] at hrec
      simpa [specList] using hrec

theorem sigPairs_some {n e : Nat} (hn : 0 < n) (hW : n < W) :
    ∀ (T : List ConstantTableEntry) (i : Nat),
      (∀ t ∈ T, t.k_pow_neg1_times_r < n) →
      (∀ j (hj : j < T.length),
        rawS n e (i + j) ((T.get ⟨j, hj⟩).k_pow_neg1_times_r) ≠ 0) →
      sigPairs n (digestAt n e i) T = some (specList n e i T) := by
  intro T
  induction T with
  | nil => intro i _ _; rfl
  | cons t rest ih =>
    intro i hT hs
    have hc : t.k_pow_neg1_times_r < n := hT t (by simp)
    have hdlt : 2 ^ i * e % n < n := Nat.mod_lt _ hn
    have hs0 : add_mod (2 ^ i * e % n) t.k_pow_neg1_times_r n ≠ 0 := by
      have h0 := hs 0 (by simp)
      simpa [rawS] using h0
    have hslt : add_mod (2 ^ i * e % n) t.k_pow_neg1_times_r n < n :=
      add_mod_lt hdlt hc hW
    simp only [sigPairs]
    rw [digestAt_mod hn hW i, if_neg hs0]
    have hrec : sigPairs n (qdouble n (2 ^ i * e % n)) rest
        = some (specList n e (i + 1) rest) := by
      have h1 : qdouble n (2 ^ i * e % n) = digestAt n e (i + 1) := by
        show _ = qdouble n (digestAt n e i % n)
        rw [digestAt_mod hn hW i]
      rw [h1]
      apply ih (i + 1) (fun u hu => hT u (by simp [hu]))
      intro j hj
      have h2 := hs (j + 1) (by simp; omega)
      have harith : i + (j + 1) = i + 1 + j := by omega
      rw [harith] at h2
      simpa using h2
    rw [hrec]
    have hws : wsub n (add_mod (2 ^ i * e % n) t.k_pow_neg1_times_r n)
        = n - add_mod (2 ^ i * e % n) t.k_pow_neg1_times_r n :=
      wsub_eq (Nat.le_of_lt hslt) hW
    simp [specList, lowS, rawS, hws]

theorem sigPairs_eq_specList {n e : Nat} (hn : 0 < n) (hW : n < W) :
    ∀ (T : List ConstantTableEntry) (i : Nat) (l : List (Nat × Nat)),
      (∀ t ∈ T, t.k_pow_neg1_times_r < n) →
      sigPairs n (digestAt n e i) T = some l →
      l = specList n e i T := by
  intro T
  induction T with
  | nil =>
    intro i l _ h
    simp only [sigPairs] at h
    cases h
    rfl
  | cons t rest ih =>
    intro i l hT h
    have hc : t.k_pow_neg1_times_r < n := hT t (by simp)
    have hdlt : 2 ^ i * e % n < n := Nat.mod_lt _ hn
    have hslt : add_mod (2 ^ i * e % n) t.k_pow_neg1_times_r n < n :=
      add_mod_lt hdlt hc hW
    simp only [sigPairs] at h
    rw [digestAt_mod hn hW i] at h
    by_cases hs0 : add_mod (2 ^ i * e % n) t.k_pow_neg1_times_r n = 0
    · rw [if_pos hs0] at h
      cases h
    · rw [if_neg hs0] at h
      have h1 : qdouble n (2 ^ i * e % n) = digestAt n e (i + 1) := by
        show _ = qdouble n (digestAt n e i % n)
        rw [digestAt_mod hn hW i]
      rw [h1] at h
      cases hr : sigPairs n (digestAt n e (i + 1)) rest with
      | none => rw [hr] at h; cases h
      | some l2 =>
        rw [hr] at h
        simp only [Option.some.injEq] at h
        have hrec := ih (i + 1) l2 (fun u hu => hT u (by simp [hu])) hr
        have hws : wsub n (add_mod (2 ^ i * e % n) t.k_pow_neg1_times_r n)
            = n - add_mod (2 ^ i * e % n) t.k_pow_neg1_times_r n :=
          wsub_eq (Nat.le_of_lt hslt) hW
        rw [← h, hrec]
        simp [specList, lowS, rawS, hws]

theorem toBeBytes_length : ∀ k v, (toBeBytes k v).length = k := by
  intro k
  induction k with
  | zero => intro v; rfl
  | succ k ih => intro v; simp [toBeBytes, ih]

theorem b64Encode_length_mod1 :
    ∀ (k : Nat) (l : List Nat), l.length = 3 * k + 1 →
      (b64Encode l).length = 4 * k + 2 := by
  intro k
  induction k with
  | zero =>
    intro l hl
    match l, hl with
    | [b1], _ => rfl
  | succ k ih =>
    intro l hl
    match l, hl with
    | b1 :: b2 :: b3 :: rest, hl =>
      have hr : rest.length = 3 * k + 1 := by simp at hl; omega
      simp [b64Encode, ih rest hr]
      omega

theorem b64Char_ascii (i : Nat) : (b64Char i).toNat < 128 := by
  by_cases h : i < 64
  · have hall : ∀ j, j < 64 → (b64Char j).toNat < 128 := by decide
    exact hall i h
  · unfold b64Char
    rw [List.getD_eq_default]
    · decide
    · have hlen : b64Alphabet.length = 64 := by decide
      omega

theorem b64Encode_ascii : ∀ (l : List Nat) (ch : Char),
    ch ∈ b64Encode l → ch.toNat < 128
  | [], ch, h => by simp [b64Encode] at h
  | [b1], ch, h => by
    simp [b64Encode] at h
    rcases h with h | h <;> (subst h; exact b64Char_ascii _)
  | [b1, b2], ch, h => by
    simp [b64Encode] at h
    rcases h with h | h | h <;> (subst h; exact b64Char_ascii _)
  | b1 :: b2 :: b3 :: b4 :: rest, ch, h => by
    simp only [b64Encode, List.mem_cons] at h
    rcases h with h | h | h | h | h
    · subst h; exact b64Char_ascii _
    · subst h; exact b64Char_ascii _
    · subst h; exact b64Char_ascii _
    · subst h; exact b64Char_ascii _
    · exact b64Encode_ascii (b4 :: rest) ch h
  | [b1, b2, b3], ch, h => by
    simp only [b64Encode, List.mem_cons] at h
    rcases h with h | h | h | h | h
    · subst h; exact b64Char_ascii _
    · subst h; exact b64Char_ascii _
    · subst h; exact b64Char_ascii _
    · subst h; exact b64Char_ascii _
    · simp [b64Encode] at h

theorem encodeSig_length (rs : Nat × Nat) : (encodeSig rs).length = 86 := by
  have hlen : (toBeBytes 32 rs.1 ++ toBeBytes 32 rs.2).length = 3 * 21 + 1 := by
    simp [toBeBytes_length]
  show (encodeSigChars rs).length = 86
  exact b64Encode_length_mod1 21 _ hlen

theorem encodeSig_ascii (rs : Nat × Nat) :
    ∀ ch ∈ (encodeSig rs).data, ch.toNat < 128 := by
  intro ch hch
  rw [encodeSig_data] at hch
  exact b64Encode_ascii _ ch hch

theorem lowS_le_half {n s : Nat} (hs : s < n) : lowS n s ≤ n / 2 := by
  unfold lowS
  by_cases h : n / 2 < s
  · rw [if_pos h]; omega
  · rw [if_neg h]; omega

/-- Claim C3 counterexample input: 32 hash bytes with value 1. -/
def cexHashBytes : List Nat := List.replicate 31 0 ++ [1]

/-- Claim C3 counterexample input: a 256-entry table whose constants are all
`n - 1` (all in `[0, n)` as the data model requires). -/
def cexTable : List ConstantTableEntry :=
  List.replicate 256 ⟨SECP256K1.n - 1, 0⟩

set_option maxRecDepth 4096 in
/-- Claim C3 counterexample: a document hash and a 256-entry table (all
entries in range) for which `generate_signatures` does not return one
signature per entry: the very first raw `s` is `0` and the
`assert_ne!(s, 0)` panic fires (`none`). -/
theorem claim_generate_signatures_format_counterexample :
    cexTable.length = 256 ∧
    (∀ t ∈ cexTable, t.k_pow_neg1_times_r < SECP256K1.n) ∧
    generate_signatures cexHashBytes cexTable SECP256K1 = none := by
  refine ⟨by simp [cexTable], ?_, ?_⟩
  · intro t ht
    have h1 : t = ⟨SECP256K1.n - 1, 0⟩ := by
      simp [cexTable, List.eq_of_mem_replicate ht]
    rw [h1]
    decide
  · decide

/-- Claim C3 (amended): provided every raw `s` value is nonzero (otherwise
the `assert_ne!(s, 0)` panic aborts the call and no list is returned),
`generate_signatures` returns exactly one signature string per table entry,
in table order; the `j`-th string is the base64url-no-padding encoding of
the 64-byte concatenation of `r_j` (32 bytes big-endian) and `s_j` (32 bytes
big-endian), and every output string is exactly 86 ASCII characters long. -/
theorem claim_generate_signatures_format (hashBytes : List Nat)
    (T : List ConstantTableEntry) (c : Curve)
    (hn : 0 < c.n) (hW : c.n < W)
    (hT : ∀ t ∈ T, t.k_pow_neg1_times_r < c.n)
    (hs : ∀ j (hj : j < T.length),
      rawS c.n (fromBeBytes hashBytes) j ((T.get ⟨j, hj⟩).k_pow_neg1_times_r) ≠ 0) :
    ∃ sigs, generate_signatures hashBytes T c = some sigs ∧
      sigs.length = T.length ∧
      (∀ j (hj : j < T.length) (hj2 : j < sigs.length),
        sigs.get ⟨j, hj2⟩ = String.mk (b64Encode
          (toBeBytes 32 ((T.get ⟨j, hj⟩).r) ++
           toBeBytes 32 (lowS c.n (rawS c.n (fromBeBytes hashBytes) j
             ((T.get ⟨j, hj⟩).k_pow_neg1_times_r)))))) ∧
      (∀ str ∈ sigs, str.length = 86 ∧ ∀ ch ∈ str.data, ch.toNat < 128) := by
  have h0 : sigPairs c.n (fromBeBytes hashBytes) T
      = some (specList c.n (fromBeBytes hashBytes) 0 T) := by
    apply @sigPairs_some c.n (fromBeBytes hashBytes) hn hW T 0 hT
    intro j hj
    have h2 := hs j hj
    rwa [Nat.zero_add]
  refine ⟨(specList c.n (fromBeBytes hashBytes) 0 T).map encodeSig, ?_, ?_, ?_, ?_⟩
  · unfold generate_signatures
    rw [h0]
    rfl
  · simp [specList_length]
  · intro j hj hj2
    have hj3 : j < (specList c.n (fromBeBytes hashBytes) 0 T).length := by
      rw [specList_length]
      exact hj
    have hg := specList_get c.n (fromBeBytes hashBytes) T 0 j hj hj3
    rw [Nat.zero_add] at hg
    calc (List.map encodeSig (specList c.n (fromBeBytes hashBytes) 0 T)).get ⟨j, hj2⟩
        = encodeSig ((specList c.n (fromBeBytes hashBytes) 0 T).get ⟨j, hj3⟩) := by
          simp [List.get_eq_getElem, List.getElem_map]
      _ = _ := by rw [hg]; rfl
  · intro str hstr
    obtain ⟨p, hp, hpe⟩ := List.mem_map.mp hstr
    rw [← hpe]
    exact ⟨encodeSig_length p, encodeSig_ascii p⟩

theorem claim_generate_signatures_format_witness :
    ∃ sigs, generate_signatures [2] [⟨1, 3⟩] ⟨0, 7, 17, (1, 2), 5⟩ = some sigs ∧
      sigs.length = ([⟨1, 3⟩] : List ConstantTableEntry).length ∧
      (∀ j (hj : j < ([⟨1, 3⟩] : List ConstantTableEntry).length)
         (hj2 : j < sigs.length),
        sigs.get ⟨j, hj2⟩ = String.mk (b64Encode
          (toBeBytes 32 ((([⟨1, 3⟩] : List ConstantTableEntry).get ⟨j, hj⟩).r) ++
           toBeBytes 32 (lowS (Curve.n ⟨0, 7, 17, (1, 2), 5⟩)
             (rawS (Curve.n ⟨0, 7, 17, (1, 2), 5⟩) (fromBeBytes [2]) j
               ((([⟨1, 3⟩] : List ConstantTableEntry).get ⟨j, hj⟩).k_pow_neg1_times_r)))))) ∧
      (∀ str ∈ sigs, str.length = 86 ∧ ∀ ch ∈ str.data, ch.toNat < 128) :=
  claim_generate_signatures_format [2] [⟨1, 3⟩] ⟨0, 7, 17, (1, 2), 5⟩
    (by decide) (by decide) (by decide) (by decide)

/-- Claim C4: every `(r, s)` pair behind the emitted signatures has
`s ≤ n / 2`: the raw `s = add_mod((2^j·e) mod n, c_j, n)` is replaced by
`n - s` exactly when it exceeds `n / 2`, and is emitted unchanged
otherwise. -/
theorem claim_low_s (hashBytes : List Nat) (T : List ConstantTableEntry)
    (c : Curve) (sigs : List String)
    (hn : 0 < c.n) (hW : c.n < W)
    (hT : ∀ t ∈ T, t.k_pow_neg1_times_r < c.n)
    (h : generate_signatures hashBytes T c = some sigs) :
    ∃ l, sigPairs c.n (fromBeBytes hashBytes) T = some l ∧
      sigs = l.map encodeSig ∧
      ∀ j (hj : j < T.length) (hj2 : j < l.length),
        (l.get ⟨j, hj2⟩).2
            = (if c.n / 2 < rawS c.n (fromBeBytes hashBytes) j
                    ((T.get ⟨j, hj⟩).k_pow_neg1_times_r)
               then c.n - rawS c.n (fromBeBytes hashBytes) j
                    ((T.get ⟨j, hj⟩).k_pow_neg1_times_r)
               else rawS c.n (fromBeBytes hashBytes) j
                    ((T.get ⟨j, hj⟩).k_pow_neg1_times_r)) ∧
          (l.get ⟨j, hj2⟩).2 ≤ c.n / 2 := by
  unfold generate_signatures at h
  obtain ⟨l, hl, hle⟩ := Option.map_eq_some'.mp h
  have hspec : l = specList c.n (fromBeBytes hashBytes) 0 T :=
    sigPairs_eq_specList hn hW T 0 l hT hl
  subst hspec
  refine ⟨_, hl, hle.symm, ?_⟩
  intro j hj hj2
  have hg := specList_get c.n (fromBeBytes hashBytes) T 0 j hj hj2
  rw [Nat.zero_add] at hg
  have hmem : T.get ⟨j, hj⟩ ∈ T := T.get_mem _ _
  have hclt : (T.get ⟨j, hj⟩).k_pow_neg1_times_r < c.n := hT _ hmem
  have hrlt : rawS c.n (fromBeBytes hashBytes) j
      ((T.get ⟨j, hj⟩).k_pow_neg1_times_r) < c.n :=
    add_mod_lt (Nat.mod_lt _ hn) hclt hW
  rw [hg]
  exact ⟨rfl, lowS_le_half hrlt⟩

theorem claim_low_s_witness :
    ∃ l, sigPairs 5 (fromBeBytes [2]) [⟨1, 3⟩] = some l ∧
      [encodeSig (3, 2)] = l.map encodeSig ∧
      ∀ j (hj : j < ([⟨1, 3⟩] : List ConstantTableEntry).length)
        (hj2 : j < l.length),
        (l.get ⟨j, hj2⟩).2
            = (if 5 / 2 < rawS 5 (fromBeBytes [2]) j
                    ((([⟨1, 3⟩] : List ConstantTableEntry).get ⟨j, hj⟩).k_pow_neg1_times_r)
               then 5 - rawS 5 (fromBeBytes [2]) j
                    ((([⟨1, 3⟩] : List ConstantTableEntry).get ⟨j, hj⟩).k_pow_neg1_times_r)
               else rawS 5 (fromBeBytes [2]) j
                    ((([⟨1, 3⟩] : List ConstantTableEntry).get ⟨j, hj⟩).k_pow_neg1_times_r)) ∧
          (l.get ⟨j, hj2⟩).2 ≤ 5 / 2 :=
  claim_low_s [2] [⟨1, 3⟩] ⟨0, 7, 17, (1, 2), 5⟩ [encodeSig (3, 2)]
    (by decide) (by decide) (by decide) (by decide)

end VanityDid
